import Mathlib

/-!
Verification of the DOCX pen-test report anonymiser
(`pen_test_report_anonymiser.py`).

The development shallowly embeds the program:

* the six compiled regular expressions of `_compile_patterns` become six
  matcher functions over `List Char`, each reproducing Python `re`
  leftmost / greedy-with-backtracking semantics for its concrete pattern
  (character classes are modelled on the ASCII range, which is where the
  patterns' classes live);
* `pattern.sub(self._mask_match, text)` becomes the fuel-driven scanner
  `subFuel`, which replaces every non-overlapping leftmost match by
  `len(match)` copies of `x` — matching is done against the original
  text of the pass, exactly as `re.sub` does;
* `anonymise_text` becomes `anonymiseText`, the sequential fold of the
  six single-pattern passes;
* runs, paragraphs, tables (with nested tables), sections and documents
  become a functional document model, and the walker becomes a pure
  transformation over it;
* the per-file exception containment of `anonymise_docx` becomes an
  `Except`-valued model, and the eligibility filter of `process_folder`
  becomes a boolean predicate over directory entries.
-/

namespace Anonymiser

/-! ## Character classes (ASCII fragment of Python's `re` classes) -/

/-- Python `\d` on ASCII: a decimal digit. -/
def isDigitC (c : Char) : Bool := '0' ≤ c && c ≤ '9'

/-- An ASCII letter, i.e. the class `[a-zA-Z]`. -/
def isAlphaC (c : Char) : Bool := ('a' ≤ c && c ≤ 'z') || ('A' ≤ c && c ≤ 'Z')

/-- Python `\w` on ASCII: letters, digits and underscore. -/
def isWordChar (c : Char) : Bool := isAlphaC c || isDigitC c || c == '_'

/-- Python `\s` on ASCII: space, tab, newline, carriage return, vertical tab, form feed. -/
def isSpaceC (c : Char) : Bool :=
  c == ' ' || c == '\t' || c == '\n' || c == '\r' || c == '\x0b' || c == '\x0c'

/-- The class `[0-9A-Fa-f]` of the MAC pattern. -/
def isHexC (c : Char) : Bool :=
  isDigitC c || ('a' ≤ c && c ≤ 'f') || ('A' ≤ c && c ≤ 'F')

/-- The local-part class `[a-zA-Z0-9._%+-]` of the email pattern. -/
def isLocalChar (c : Char) : Bool :=
  isAlphaC c || isDigitC c || c == '.' || c == '_' || c == '%' || c == '+' || c == '-'

/-- The domain class `[a-zA-Z0-9.-]` of the email pattern. -/
def isDomChar (c : Char) : Bool :=
  isAlphaC c || isDigitC c || c == '.' || c == '-'

/-- The label class `[a-zA-Z0-9-]` of the hostname pattern. -/
def isLabelChar (c : Char) : Bool :=
  isAlphaC c || isDigitC c || c == '-'

/-- Length of the maximal prefix of `s` whose characters satisfy `p`
(the span a greedy `[class]*` consumes). -/
def countWhile (p : Char → Bool) : List Char → Nat
  | [] => 0
  | c :: cs => if p c then countWhile p cs + 1 else 0

/-! ## Word boundaries -/

/-- Whether the character preceding the current position (if any) is a word
character; at the start of the text there is none. -/
def prevIsWord : Option Char → Bool
  | none => false
  | some c => isWordChar c

/-- Python `\b` at the position whose left context is `prev` and whose right
context is the suffix `s`: word-ness changes across the position. -/
def atBoundary (prev : Option Char) (s : List Char) : Bool :=
  prevIsWord prev != (match s with | [] => false | c :: _ => isWordChar c)

/-- Python `\b` placed right after a word character: the next character, if
any, must not be a word character. -/
def wordEnd : List Char → Bool
  | [] => true
  | c :: _ => !isWordChar c

/-- A matcher takes the character before the current position and the suffix
starting at the current position, and returns the length of the (unique,
per the backtracking semantics of the concrete pattern) match anchored
there, if any. -/
abbrev Matcher := Option Char → List Char → Option Nat

/-! ## Pattern 1: IPv4, `\b(?:\d{1,3}\.){3}\d{1,3}\b` -/

/-- One `\d{1,3}\.` group.  The greedy digit run is forced to be maximal:
a shorter split leaves a digit where `\.` must match, so the group matches
iff the maximal digit run has length 1–3 and is followed by a dot. -/
def matchOctetDot (s : List Char) : Option Nat :=
  let k := countWhile isDigitC s
  if 1 ≤ k && k ≤ 3 && (s.drop k).head? == some '.' then some (k + 1) else none

/-- The final `\d{1,3}\b`: every backtracking split leaves a digit (a word
character) after the consumed digits, so the element matches iff the maximal
digit run has length 1–3 and the character after it is not a word character. -/
def matchTailOctet (s : List Char) : Option Nat :=
  let k := countWhile isDigitC s
  if 1 ≤ k && k ≤ 3 && wordEnd (s.drop k) then some k else none

/-- The compiled pattern `\b(?:\d{1,3}\.){3}\d{1,3}\b`. -/
def matchIPv4 (prev : Option Char) (s : List Char) : Option Nat :=
  if atBoundary prev s then
    match matchOctetDot s with
    | some a =>
      match matchOctetDot (s.drop a) with
      | some b =>
        match matchOctetDot (s.drop (a + b)) with
        | some c =>
          match matchTailOctet (s.drop (a + b + c)) with
          | some d => some (a + b + c + d)
          | none => none
        | none => none
      | none => none
    | none => none
  else none

/-! ## Pattern 2: URL, `\bhttps?://[^\s]+` -/

/-- The compiled pattern `\bhttps?://[^\s]+`.  The greedy `s?` reduces to
trying the literal `https://` before `http://`; `[^\s]+` is greedy with no
trailing constraint, so it consumes the maximal non-whitespace run. -/
def matchURL (prev : Option Char) (s : List Char) : Option Nat :=
  if atBoundary prev s then
    if List.isPrefixOf ("https://".data) s then
      let k := countWhile (fun c => !isSpaceC c) (s.drop 8)
      if 1 ≤ k then some (8 + k) else none
    else if List.isPrefixOf ("http://".data) s then
      let k := countWhile (fun c => !isSpaceC c) (s.drop 7)
      if 1 ≤ k then some (7 + k) else none
    else none
  else none

/-! ## Pattern 3: email, `\b[a-zA-Z0-9._%+-]+@[a-zA-Z0-9.-]+\.[a-zA-Z]{2,}\b` -/

/-- Backtracking search for the split of `[a-zA-Z0-9.-]+\.[a-zA-Z]{2,}\b`
inside the maximal domain-character run of `t`: the greedy `+` first consumes
`j+1` characters, then `\.` must find a literal dot, then `[a-zA-Z]{2,}` is
forced to the maximal letter run (shorter splits leave a letter where `\b`
must hold), followed by a word boundary.  Splits are tried longest first. -/
def findDomTail (t : List Char) : Nat → Option Nat
  | 0 => none
  | j + 1 =>
    let m := countWhile isAlphaC (t.drop (j + 2))
    if (t.drop (j + 1)).head? == some '.' && 2 ≤ m && wordEnd (t.drop (j + 2 + m)) then
      some (j + 2 + m)
    else findDomTail t j

/-- The compiled pattern `\b[a-zA-Z0-9._%+-]+@[a-zA-Z0-9.-]+\.[a-zA-Z]{2,}\b`.
`@` is not a local-part character, so the greedy local part is forced to the
maximal local run, which must be followed by a literal `@`. -/
def matchEmail (prev : Option Char) (s : List Char) : Option Nat :=
  if atBoundary prev s then
    let l := countWhile isLocalChar s
    if 1 ≤ l && (s.drop l).head? == some '@' then
      let t := s.drop (l + 1)
      match findDomTail t (countWhile isDomChar t) with
      | some d => some (l + 1 + d)
      | none => none
    else none
  else none

/-! ## Pattern 4: MAC, `\b(?:[0-9A-Fa-f]{2}:){5}[0-9A-Fa-f]{2}\b` -/

/-- The compiled pattern `\b(?:[0-9A-Fa-f]{2}:){5}[0-9A-Fa-f]{2}\b`: a fixed
17-character shape (pairs of hex digits at offsets 3i, 3i+1, colons at
offsets 3i+2) with word boundaries on both sides. -/
def matchMAC (prev : Option Char) (s : List Char) : Option Nat :=
  if atBoundary prev s && 17 ≤ s.length
      && (List.range 6).all (fun i => isHexC (s.getD (3 * i) ' ') && isHexC (s.getD (3 * i + 1) ' '))
      && (List.range 5).all (fun i => s.getD (3 * i + 2) ' ' == ':')
      && wordEnd (s.drop 17) then
    some 17
  else none

/-! ## Pattern 5: port, `\bport\s+\d{1,5}\b` with `re.IGNORECASE` -/

/-- The compiled pattern `\bport\s+\d{1,5}\b` (case-insensitive).  `\s+` is
forced to the maximal whitespace run (a shorter split leaves whitespace where
`\d` must match), and `\d{1,5}\b` is forced to the maximal digit run of
length 1–5 followed by a non-word character. -/
def matchPort (prev : Option Char) (s : List Char) : Option Nat :=
  if atBoundary prev s && 4 ≤ s.length
      && (s.getD 0 ' ' == 'p' || s.getD 0 ' ' == 'P')
      && (s.getD 1 ' ' == 'o' || s.getD 1 ' ' == 'O')
      && (s.getD 2 ' ' == 'r' || s.getD 2 ' ' == 'R')
      && (s.getD 3 ' ' == 't' || s.getD 3 ' ' == 'T') then
    let r := s.drop 4
    let w := countWhile isSpaceC r
    let u := r.drop w
    let k := countWhile isDigitC u
    if 1 ≤ w && 1 ≤ k && k ≤ 5 && wordEnd (u.drop k) then some (4 + w + k) else none
  else none

/-! ## Pattern 6: hostname, `\b(?:[a-zA-Z0-9-]+\.)+[a-zA-Z]{2,}\b` -/

/-- One `[a-zA-Z0-9-]+\.` group: as for the IPv4 octets, the greedy label
run is forced maximal and must be followed by a literal dot. -/
def matchLabelDot (s : List Char) : Option Nat :=
  let k := countWhile isLabelChar s
  if 1 ≤ k && (s.drop k).head? == some '.' then some (k + 1) else none

/-- The trailing `[a-zA-Z]{2,}\b`: forced to the maximal letter run, of
length at least 2, followed by a non-word character. -/
def hostTail (s : List Char) : Option Nat :=
  let m := countWhile isAlphaC s
  if 2 ≤ m && wordEnd (s.drop m) then some m else none

/-- Continuation of `(?:[a-zA-Z0-9-]+\.)+[a-zA-Z]{2,}\b` after at least one
group: the greedy `+` prefers a further group; if the rest of the match
fails after taking it, it backtracks to the tail at the current position.
Each group consumes at least two characters, so `s.length` is enough fuel. -/
def hostAfterOne (s : List Char) : Nat → Option Nat
  | 0 => hostTail s
  | fuel + 1 =>
    match matchLabelDot s with
    | some g =>
      match hostAfterOne (s.drop g) fuel with
      | some r => some (g + r)
      | none => hostTail s
    | none => hostTail s

/-- The compiled pattern `\b(?:[a-zA-Z0-9-]+\.)+[a-zA-Z]{2,}\b`. -/
def matchHost (prev : Option Char) (s : List Char) : Option Nat :=
  if atBoundary prev s then
    match matchLabelDot s with
    | some g =>
      match hostAfterOne (s.drop g) s.length with
      | some r => some (g + r)
      | none => none
    | none => none
  else none

/-! ## `pattern.sub(self._mask_match, text)` and `anonymise_text` -/

/-- One pass of `pattern.sub(self._mask_match, text)`: scan left to right
over the original text of the pass; at each position either no match is
anchored (copy the character) or the match of length `n` is replaced by
`n` copies of `x` (`_mask_match`) and scanning resumes after it.  `prev`
is the character of the original text before the current position, as
`re.sub` matches against the input string of the pass.  Each step consumes
at least one character, so the length of the text is enough fuel. -/
def subFuel (m : Matcher) : Nat → Option Char → List Char → List Char
  | 0, _, s => s
  | _ + 1, _, [] => []
  | fuel + 1, prev, c :: cs =>
    match m prev (c :: cs) with
    | none => c :: subFuel m fuel (some c) cs
    | some n =>
      List.replicate n 'x' ++ subFuel m fuel (some ((c :: cs).getD (n - 1) c)) (cs.drop (n - 1))

/-- One full substitution pass of a single compiled pattern. -/
def subPattern (m : Matcher) (s : List Char) : List Char :=
  subFuel m s.length none s

/-- The ordered pattern list of `_compile_patterns`. -/
def theMatchers : List Matcher :=
  [matchIPv4, matchURL, matchEmail, matchMAC, matchPort, matchHost]

/-- `anonymise_text`: the six substitution passes applied sequentially,
each scanning the output of the previous one. -/
def anonymiseText (s : List Char) : List Char :=
  theMatchers.foldl (fun t m => subPattern m t) s

/-- String-level view of `anonymise_text`. -/
def anonymise (s : String) : String :=
  String.mk (anonymiseText s.data)

/-! ## When a pattern matches nowhere, its pass copies the text -/

/-- Scan of one pass that records that the matcher is anchored at no
position of the text (mirrors the positions `subFuel` visits). -/
def noMatchFrom (m : Matcher) : Nat → Option Char → List Char → Bool
  | 0, _, _ => true
  | _ + 1, _, [] => true
  | fuel + 1, prev, c :: cs => (m prev (c :: cs)).isNone && noMatchFrom m fuel (some c) cs

/-- The matcher `m` is anchored at no position of `s`. -/
def noMatchIn (m : Matcher) (s : List Char) : Bool :=
  noMatchFrom m s.length none s

theorem subFuel_of_noMatchFrom (m : Matcher) :
    ∀ (fuel : Nat) (prev : Option Char) (s : List Char),
      noMatchFrom m fuel prev s = true → subFuel m fuel prev s = s := by
  intro fuel
  induction fuel with
  | zero => intro prev s _; rfl
  | succ f ih =>
    intro prev s h
    cases s with
    | nil => rfl
    | cons c cs =>
      simp only [noMatchFrom, Bool.and_eq_true, Option.isNone_iff_eq_none] at h
      simp only [subFuel, h.1]
      exact congrArg (c :: ·) (ih (some c) cs h.2)

theorem subPattern_of_noMatchIn (m : Matcher) (s : List Char) (h : noMatchIn m s = true) :
    subPattern m s = s :=
  subFuel_of_noMatchFrom m s.length none s h

/-- If none of the six matchers is anchored anywhere in `s`, every pass
copies `s` and `anonymise_text` returns it unchanged. -/
theorem anonymiseText_id_of_noMatch (s : List Char)
    (h : ∀ m ∈ theMatchers, noMatchIn m s = true) : anonymiseText s = s := by
  have h1 := subPattern_of_noMatchIn matchIPv4 s (h _ (by simp [theMatchers]))
  have h2 := subPattern_of_noMatchIn matchURL s (h _ (by simp [theMatchers]))
  have h3 := subPattern_of_noMatchIn matchEmail s (h _ (by simp [theMatchers]))
  have h4 := subPattern_of_noMatchIn matchMAC s (h _ (by simp [theMatchers]))
  have h5 := subPattern_of_noMatchIn matchPort s (h _ (by simp [theMatchers]))
  have h6 := subPattern_of_noMatchIn matchHost s (h _ (by simp [theMatchers]))
  simp only [anonymiseText, theMatchers, List.foldl]
  rw [h1, h2, h3, h4, h5, h6]

/-- C7: for every input text in which none of the six patterns (IPv4, URL,
email, MAC, port reference, hostname/domain) is anchored at any position,
`anonymise_text` returns the text unchanged. -/
theorem c7_no_match_identity (s : List Char)
    (h : ∀ m ∈ theMatchers, noMatchIn m s = true) : anonymiseText s = s :=
  anonymiseText_id_of_noMatch s h

/-- Witness for C7 on a concrete match-free text. -/
theorem c7_no_match_identity_witness :
    anonymiseText (("The host was not reachable during the test window").data)
      = ("The host was not reachable during the test window").data :=
  c7_no_match_identity (("The host was not reachable during the test window").data)
    (by decide)

/-- C5, counterexample: on the scenario input, `anonymise_text` does not
return the string claimed by the spec (whose masked run has 13 `x`
characters, one more than the 12-character IP span). -/
theorem c5_counterexample :
    anonymiseText (("Server at 192.168.1.10 is vulnerable to CVE-2023-44487.").data)
      ≠ ("Server at ").data ++ List.replicate 13 'x'
          ++ (" is vulnerable to CVE-2023-44487.").data := by decide

/-- C5, amended: on the scenario input, the 12-character IP span is replaced
by 12 `x` characters and all other text, the CVE identifier included, is
unchanged. -/
theorem c5_masks_ip :
    anonymiseText (("Server at 192.168.1.10 is vulnerable to CVE-2023-44487.").data)
      = ("Server at ").data ++ List.replicate 12 'x'
          ++ (" is vulnerable to CVE-2023-44487.").data := by decide

/-- C6: on the scenario input, the 18-character email span and the
33-character URL span each become an `x`-run of the same length, and the
surrounding words are unchanged. -/
theorem c6_email_and_url_masked :
    anonymiseText (("Contact admin@client.local or visit https://portal.client.local/login").data)
      = ("Contact ").data ++ List.replicate 18 'x'
          ++ (" or visit ").data ++ List.replicate 33 'x' := by decide

/-- Whether `pat` occurs as a contiguous substring of the text. -/
def hasSub (pat : List Char) : List Char → Bool
  | [] => pat.isPrefixOf []
  | c :: cs => pat.isPrefixOf (c :: cs) || hasSub pat cs

/-- C1, counterexample: the text `CVE-2023-44487.com` contains the CVE-shaped
string `CVE-2023-44487`, yet the hostname pattern masks the whole text, so
the CVE token does not survive in every text containing it. -/
theorem c1_counterexample :
    hasSub (("CVE-2023-44487").data) (("CVE-2023-44487.com").data) = true
    ∧ anonymiseText (("CVE-2023-44487.com").data) = List.replicate 18 'x'
    ∧ hasSub (("CVE-2023-44487").data)
        (anonymiseText (("CVE-2023-44487.com").data)) = false := by decide

/-- C2, counterexample: the text `1.2.3.4.5` contains the word-bounded
IPv4-shaped substring `2.3.4.5`, but `anonymise_text` masks `1.2.3.4`
instead: the claimed span does not become an `x`-run and its surrounding
text does not stay intact. -/
theorem c2_counterexample :
    anonymiseText (("1.").data ++ ("2.3.4.5").data) = ("xxxxxxx.5").data
    ∧ ("xxxxxxx.5").data ≠ ("1.").data ++ List.replicate 7 'x' := by decide

/-- C4, counterexample: `anonymise_text` is not idempotent: on
`f@-.a@b.co` the first application yields `f@-.xxxxxx`, in which the email
pattern finds a fresh match, so the second application masks everything. -/
theorem c4_counterexample :
    anonymiseText (("f@-.a@b.co").data) = ("f@-.xxxxxx").data
    ∧ anonymiseText (anonymiseText (("f@-.a@b.co").data)) = List.replicate 10 'x'
    ∧ anonymiseText (anonymiseText (("f@-.a@b.co").data))
        ≠ anonymiseText (("f@-.a@b.co").data) := by decide

/-- C4, amended: `anonymise_text` is idempotent on every output in which no
pattern finds a further match — the situation the spec's parenthetical
asserts for masked output; the counterexample shows it can fail otherwise. -/
theorem c4_idempotent_when_output_matchfree (s : List Char)
    (h : ∀ m ∈ theMatchers, noMatchIn m (anonymiseText s) = true) :
    anonymiseText (anonymiseText s) = anonymiseText s :=
  anonymiseText_id_of_noMatch (anonymiseText s) h

/-- Witness for the amended C4 on a concrete input whose output is
match-free. -/
theorem c4_idempotent_when_output_matchfree_witness :
    anonymiseText (anonymiseText (("a@b.co").data)) = anonymiseText (("a@b.co").data) :=
  c4_idempotent_when_output_matchfree (("a@b.co").data) (by decide)

/-! ## Texts made of pattern-inert characters are fixed points

Every pattern needs, somewhere in its match, a literal `.`, `@`, `:`, an
initial `h` (URL) or `p`/`P` (port).  A text avoiding those six characters
is untouched by every pass. -/

/-- A character that no pattern can anchor a match on: not `.`, `@`, `:`,
`h`, `p` or `P`. -/
def benignChar (c : Char) : Bool :=
  !(c == '.') && !(c == '@') && !(c == ':') && !(c == 'h') && !(c == 'p') && !(c == 'P')

theorem mem_of_drop_head (s : List Char) (k : Nat) (c : Char)
    (h : (s.drop k).head? = some c) : c ∈ s := by
  have h2 : c ∈ s.drop k := by
    cases hd : s.drop k with
    | nil => rw [hd] at h; cases h
    | cons a t =>
      rw [hd] at h
      simp only [List.head?_cons, Option.some.injEq] at h
      rw [← h]
      exact List.mem_cons_self a t
  exact List.drop_subset k s h2

theorem matchOctetDot_none (s : List Char) (h : '.' ∉ s) : matchOctetDot s = none := by
  unfold matchOctetDot
  dsimp only
  split
  next hc =>
    simp only [Bool.and_eq_true, beq_iff_eq] at hc
    exact absurd (mem_of_drop_head s _ '.' hc.2) h
  next => rfl

theorem matchIPv4_none (prev : Option Char) (s : List Char) (h : '.' ∉ s) :
    matchIPv4 prev s = none := by
  unfold matchIPv4
  split
  · rw [matchOctetDot_none s h]
  · rfl

theorem matchLabelDot_none (s : List Char) (h : '.' ∉ s) : matchLabelDot s = none := by
  unfold matchLabelDot
  dsimp only
  split
  next hc =>
    simp only [Bool.and_eq_true, beq_iff_eq] at hc
    exact absurd (mem_of_drop_head s _ '.' hc.2) h
  next => rfl

theorem matchHost_none (prev : Option Char) (s : List Char) (h : '.' ∉ s) :
    matchHost prev s = none := by
  unfold matchHost
  split
  · rw [matchLabelDot_none s h]
  · rfl

theorem matchEmail_none (prev : Option Char) (s : List Char) (h : '@' ∉ s) :
    matchEmail prev s = none := by
  unfold matchEmail
  split
  · dsimp only
    split
    next hc =>
      simp only [Bool.and_eq_true, beq_iff_eq] at hc
      exact absurd (mem_of_drop_head s _ '@' hc.2) h
    next => rfl
  · rfl

theorem matchMAC_none (prev : Option Char) (s : List Char) (h : ':' ∉ s) :
    matchMAC prev s = none := by
  unfold matchMAC
  split
  next hc =>
    exfalso
    simp only [Bool.and_eq_true, List.all_eq_true, beq_iff_eq] at hc
    obtain ⟨⟨⟨⟨_, hlen⟩, _⟩, hcol⟩, _⟩ := hc
    have h0 : s.getD 2 ' ' = ':' := by
      have := hcol 0 (by decide)
      simpa using this
    rcases s with _ | ⟨c0, s⟩
    · simp at hlen
    rcases s with _ | ⟨c1, s⟩
    · simp at hlen
    rcases s with _ | ⟨c2, s⟩
    · simp at hlen
    simp only [List.getD, List.get?, Option.getD] at h0
    exact h (by rw [← h0]; simp)
  next => rfl

theorem matchURL_none (prev : Option Char) (s : List Char) (h : 'h' ∉ s) :
    matchURL prev s = none := by
  unfold matchURL
  split
  · split
    next hp =>
      exfalso
      have hpre : ("https://".data) <+: s := by
        rw [← List.isPrefixOf_iff_prefix]; exact hp
      obtain ⟨t, ht⟩ := hpre
      exact h (by rw [← ht]; simp)
    next =>
      split
      next hp =>
        exfalso
        have hpre : ("http://".data) <+: s := by
          rw [← List.isPrefixOf_iff_prefix]; exact hp
        obtain ⟨t, ht⟩ := hpre
        exact h (by rw [← ht]; simp)
      next => rfl
  · rfl

theorem matchPort_none (prev : Option Char) (s : List Char) (hp : 'p' ∉ s) (hP : 'P' ∉ s) :
    matchPort prev s = none := by
  unfold matchPort
  split
  next hc =>
    exfalso
    simp only [Bool.and_eq_true, Bool.or_eq_true, beq_iff_eq] at hc
    obtain ⟨⟨⟨⟨⟨_, hlen⟩, h0⟩, _⟩, _⟩, _⟩ := hc
    rcases s with _ | ⟨c0, s⟩
    · simp at hlen
    simp only [List.getD, List.get?, Option.getD] at h0
    rcases h0 with h0 | h0
    · exact hp (by rw [← h0]; simp)
    · exact hP (by rw [← h0]; simp)
  next => rfl

theorem not_mem_of_benign (s : List Char) (hb : ∀ c ∈ s, benignChar c = true)
    (a : Char) (ha : benignChar a = false) : a ∉ s := by
  intro hmem
  rw [hb a hmem] at ha
  cases ha

/-- Each matcher is anchored nowhere in a text of benign characters. -/
theorem matcher_none_of_benign (m : Matcher) (hm : m ∈ theMatchers)
    (prev : Option Char) (s : List Char) (hb : ∀ c ∈ s, benignChar c = true) :
    m prev s = none := by
  simp only [theMatchers, List.mem_cons, List.not_mem_nil, or_false] at hm
  rcases hm with rfl | rfl | rfl | rfl | rfl | rfl
  · exact matchIPv4_none prev s (not_mem_of_benign s hb '.' (by decide))
  · exact matchURL_none prev s (not_mem_of_benign s hb 'h' (by decide))
  · exact matchEmail_none prev s (not_mem_of_benign s hb '@' (by decide))
  · exact matchMAC_none prev s (not_mem_of_benign s hb ':' (by decide))
  · exact matchPort_none prev s (not_mem_of_benign s hb 'p' (by decide))
      (not_mem_of_benign s hb 'P' (by decide))
  · exact matchHost_none prev s (not_mem_of_benign s hb '.' (by decide))

theorem noMatchFrom_of_benign (m : Matcher) (hm : m ∈ theMatchers) :
    ∀ (fuel : Nat) (prev : Option Char) (s : List Char),
      (∀ c ∈ s, benignChar c = true) → noMatchFrom m fuel prev s = true := by
  intro fuel
  induction fuel with
  | zero => intro prev s _; rfl
  | succ f ih =>
    intro prev s hb
    cases s with
    | nil => rfl
    | cons c cs =>
      simp only [noMatchFrom, Bool.and_eq_true, Option.isNone_iff_eq_none]
      refine ⟨matcher_none_of_benign m hm prev (c :: cs) hb, ?_⟩
      exact ih (some c) cs (fun a ha => hb a (List.mem_cons_of_mem c ha))

/-- A text of benign characters is a fixed point of `anonymise_text`. -/
theorem anonymiseText_id_of_benign (s : List Char)
    (hb : ∀ c ∈ s, benignChar c = true) : anonymiseText s = s :=
  anonymiseText_id_of_noMatch s
    (fun m hm => noMatchFrom_of_benign m hm s.length none s hb)

/-! ## C1 (amended): standalone CVE strings survive -/

/-- A CVE-shaped identifier `CVE-<y>-<n>` with digit groups `y` and `n`. -/
def cveString (y n : List Char) : List Char :=
  'C' :: 'V' :: 'E' :: '-' :: (y ++ '-' :: n)

theorem benign_of_digit (c : Char) (h : isDigitC c = true) : benignChar c = true := by
  simp only [isDigitC, Bool.and_eq_true, decide_eq_true_eq] at h
  simp only [benignChar, Bool.and_eq_true, Bool.not_eq_true', beq_eq_false_iff_ne, ne_eq]
  have hlo : 48 ≤ c.toNat := h.1
  have hhi : c.toNat ≤ 57 := h.2
  refine ⟨⟨⟨⟨⟨?_, ?_⟩, ?_⟩, ?_⟩, ?_⟩, ?_⟩ <;>
    · rintro rfl
      simp_all

/-- C1, amended: for all digit groups `y` (4 digits) and `n` (at least 4
digits), `anonymise_text` leaves the standalone text `CVE-<y>-<n>`
unchanged: no pattern can anchor a match on its characters. -/
theorem c1_cve_unchanged (y n : List Char) (hy : y.length = 4) (hn : 4 ≤ n.length)
    (hyd : ∀ c ∈ y, isDigitC c = true) (hnd : ∀ c ∈ n, isDigitC c = true) :
    anonymiseText (cveString y n) = cveString y n := by
  apply anonymiseText_id_of_benign
  intro c hc
  simp only [cveString, List.mem_cons, List.mem_append] at hc
  rcases hc with rfl | rfl | rfl | rfl | hc | rfl | hc
  · decide
  · decide
  · decide
  · decide
  · exact benign_of_digit c (hyd c hc)
  · decide
  · exact benign_of_digit c (hnd c hc)

/-- Witness for the amended C1 at `CVE-2023-44487`. -/
theorem c1_cve_unchanged_witness :
    anonymiseText (cveString (("2023").data) (("44487").data))
      = cveString (("2023").data) (("44487").data) :=
  c1_cve_unchanged (("2023").data) (("44487").data)
    (by decide) (by decide) (by decide) (by decide)

/-! ## Every match is non-empty and stays inside the text -/

theorem countWhile_le_length (p : Char → Bool) : ∀ s : List Char, countWhile p s ≤ s.length := by
  intro s
  induction s with
  | nil => exact Nat.le_refl 0
  | cons c cs ih =>
    simp only [countWhile, List.length_cons]
    split
    · omega
    · omega

theorem lt_length_of_drop_head (s : List Char) (k : Nat) (c : Char)
    (h : (s.drop k).head? = some c) : k < s.length := by
  by_contra hk
  rw [List.drop_eq_nil_of_le (by omega)] at h
  cases h

theorem matchOctetDot_bounds (s : List Char) (n : Nat) (h : matchOctetDot s = some n) :
    1 ≤ n ∧ n ≤ s.length := by
  unfold matchOctetDot at h
  dsimp only at h
  split at h
  next hc =>
    simp only [Bool.and_eq_true, beq_iff_eq, decide_eq_true_eq] at hc
    cases h
    have := lt_length_of_drop_head s _ _ hc.2
    omega
  next => cases h

theorem matchTailOctet_bounds (s : List Char) (n : Nat) (h : matchTailOctet s = some n) :
    1 ≤ n ∧ n ≤ s.length := by
  unfold matchTailOctet at h
  dsimp only at h
  split at h
  next hc =>
    simp only [Bool.and_eq_true, decide_eq_true_eq] at hc
    cases h
    have := countWhile_le_length isDigitC s
    omega
  next => cases h

theorem matchIPv4_bounds (prev : Option Char) (s : List Char) (n : Nat)
    (h : matchIPv4 prev s = some n) : 1 ≤ n ∧ n ≤ s.length := by
  unfold matchIPv4 at h
  split at h
  · split at h
    next a ha =>
      split at h
      next b hb =>
        split at h
        next c hc =>
          split at h
          next d hd =>
            cases h
            have Ba := matchOctetDot_bounds s a ha
            have Bb := matchOctetDot_bounds _ b hb
            have Bc := matchOctetDot_bounds _ c hc
            have Bd := matchTailOctet_bounds _ d hd
            rw [List.length_drop] at Bb Bc Bd
            omega
          next => cases h
        next => cases h
      next => cases h
    next => cases h
  · cases h

theorem matchURL_bounds (prev : Option Char) (s : List Char) (n : Nat)
    (h : matchURL prev s = some n) : 1 ≤ n ∧ n ≤ s.length := by
  unfold matchURL at h
  split at h
  · split at h
    next hp =>
      have h8 : 8 ≤ s.length := by
        have : ("https://".data) <+: s := by rw [← List.isPrefixOf_iff_prefix]; exact hp
        simpa using this.length_le
      dsimp only at h
      split at h
      · cases h
        have := countWhile_le_length (fun c => !isSpaceC c) (s.drop 8)
        rw [List.length_drop] at this
        omega
      · cases h
    next =>
      split at h
      next hp =>
        have h7 : 7 ≤ s.length := by
          have : ("http://".data) <+: s := by rw [← List.isPrefixOf_iff_prefix]; exact hp
          simpa using this.length_le
        dsimp only at h
        split at h
        · cases h
          have := countWhile_le_length (fun c => !isSpaceC c) (s.drop 7)
          rw [List.length_drop] at this
          omega
        · cases h
      next => cases h
  · cases h

theorem findDomTail_bounds (t : List Char) :
    ∀ (j n : Nat), findDomTail t j = some n → 1 ≤ n ∧ n ≤ t.length := by
  intro j
  induction j with
  | zero => intro n h; cases h
  | succ j ih =>
    intro n h
    unfold findDomTail at h
    dsimp only at h
    split at h
    next hc =>
      simp only [Bool.and_eq_true, beq_iff_eq, decide_eq_true_eq] at hc
      cases h
      have h1 := lt_length_of_drop_head t _ _ hc.1.1
      have h2 := countWhile_le_length isAlphaC (t.drop (j + 2))
      rw [List.length_drop] at h2
      omega
    next => exact ih n h

theorem matchEmail_bounds (prev : Option Char) (s : List Char) (n : Nat)
    (h : matchEmail prev s = some n) : 1 ≤ n ∧ n ≤ s.length := by
  unfold matchEmail at h
  split at h
  · dsimp only at h
    split at h
    next hc =>
      simp only [Bool.and_eq_true, beq_iff_eq, decide_eq_true_eq] at hc
      have hl := lt_length_of_drop_head s _ _ hc.2
      split at h
      next d hd =>
        cases h
        have := findDomTail_bounds _ _ d hd
        rw [List.length_drop] at this
        omega
      next => cases h
    next => cases h
  · cases h

theorem matchMAC_bounds (prev : Option Char) (s : List Char) (n : Nat)
    (h : matchMAC prev s = some n) : 1 ≤ n ∧ n ≤ s.length := by
  unfold matchMAC at h
  split at h
  next hc =>
    simp only [Bool.and_eq_true, decide_eq_true_eq] at hc
    obtain ⟨⟨⟨⟨_, hlen⟩, _⟩, _⟩, _⟩ := hc
    cases h
    omega
  next => cases h

theorem matchPort_bounds (prev : Option Char) (s : List Char) (n : Nat)
    (h : matchPort prev s = some n) : 1 ≤ n ∧ n ≤ s.length := by
  unfold matchPort at h
  split at h
  next hc =>
    simp only [Bool.and_eq_true, decide_eq_true_eq] at hc
    dsimp only at h
    split at h
    next hc2 =>
      simp only [Bool.and_eq_true, decide_eq_true_eq] at hc2
      cases h
      have h4 : 4 ≤ s.length := hc.1.1.1.1.2
      have hw := countWhile_le_length isSpaceC (s.drop 4)
      have hk := countWhile_le_length isDigitC ((s.drop 4).drop (countWhile isSpaceC (s.drop 4)))
      rw [List.length_drop] at hw
      rw [List.length_drop, List.length_drop] at hk
      omega
    next => cases h
  next => cases h

theorem matchLabelDot_bounds (s : List Char) (n : Nat) (h : matchLabelDot s = some n) :
    1 ≤ n ∧ n ≤ s.length := by
  unfold matchLabelDot at h
  dsimp only at h
  split at h
  next hc =>
    simp only [Bool.and_eq_true, beq_iff_eq, decide_eq_true_eq] at hc
    cases h
    have := lt_length_of_drop_head s _ _ hc.2
    omega
  next => cases h

theorem hostTail_bounds (s : List Char) (n : Nat) (h : hostTail s = some n) :
    1 ≤ n ∧ n ≤ s.length := by
  unfold hostTail at h
  dsimp only at h
  split at h
  next hc =>
    simp only [Bool.and_eq_true, decide_eq_true_eq] at hc
    cases h
    have := countWhile_le_length isAlphaC s
    omega
  next => cases h

theorem hostAfterOne_bounds :
    ∀ (fuel : Nat) (s : List Char) (n : Nat), hostAfterOne s fuel = some n →
      1 ≤ n ∧ n ≤ s.length := by
  intro fuel
  induction fuel with
  | zero => intro s n h; exact hostTail_bounds s n h
  | succ f ih =>
    intro s n h
    unfold hostAfterOne at h
    split at h
    next g hg =>
      split at h
      next r hr =>
        cases h
        have B1 := matchLabelDot_bounds s g hg
        have B2 := ih (s.drop g) r hr
        rw [List.length_drop] at B2
        omega
      next => exact hostTail_bounds s n h
    next => exact hostTail_bounds s n h

theorem matchHost_bounds (prev : Option Char) (s : List Char) (n : Nat)
    (h : matchHost prev s = some n) : 1 ≤ n ∧ n ≤ s.length := by
  unfold matchHost at h
  split at h
  · split at h
    next g hg =>
      split at h
      next r hr =>
        cases h
        have B1 := matchLabelDot_bounds s g hg
        have B2 := hostAfterOne_bounds s.length (s.drop g) r hr
        rw [List.length_drop] at B2
        omega
      next => cases h
    next => cases h
  · cases h

/-- Every matcher of the pattern list consumes at least one and at most all
characters of the suffix it is anchored on. -/
theorem matcher_bounds (m : Matcher) (hm : m ∈ theMatchers) (prev : Option Char)
    (s : List Char) (n : Nat) (h : m prev s = some n) : 1 ≤ n ∧ n ≤ s.length := by
  simp only [theMatchers, List.mem_cons, List.not_mem_nil, or_false] at hm
  rcases hm with rfl | rfl | rfl | rfl | rfl | rfl
  · exact matchIPv4_bounds prev s n h
  · exact matchURL_bounds prev s n h
  · exact matchEmail_bounds prev s n h
  · exact matchMAC_bounds prev s n h
  · exact matchPort_bounds prev s n h
  · exact matchHost_bounds prev s n h

/-- A substitution pass never changes the length of the text: each match of
length `n` is replaced by `n` copies of `x`. -/
theorem subFuel_length (m : Matcher) (hm : m ∈ theMatchers) :
    ∀ (fuel : Nat) (prev : Option Char) (s : List Char),
      (subFuel m fuel prev s).length = s.length := by
  intro fuel
  induction fuel with
  | zero => intro prev s; rfl
  | succ f ih =>
    intro prev s
    cases s with
    | nil => rfl
    | cons c cs =>
      simp only [subFuel]
      cases hmc : m prev (c :: cs) with
      | none => simp [ih]
      | some n =>
        have B := matcher_bounds m hm prev (c :: cs) n hmc
        simp only [List.length_cons] at B
        simp only [List.length_append, List.length_replicate, ih, List.length_drop,
          List.length_cons]
        omega

theorem subPattern_length (m : Matcher) (hm : m ∈ theMatchers) (s : List Char) :
    (subPattern m s).length = s.length :=
  subFuel_length m hm s.length none s

/-- `anonymise_text` preserves the length of the text. -/
theorem anonymiseText_length (s : List Char) : (anonymiseText s).length = s.length := by
  simp only [anonymiseText, theMatchers, List.foldl]
  rw [subPattern_length matchHost (by simp [theMatchers]),
    subPattern_length matchPort (by simp [theMatchers]),
    subPattern_length matchMAC (by simp [theMatchers]),
    subPattern_length matchEmail (by simp [theMatchers]),
    subPattern_length matchURL (by simp [theMatchers]),
    subPattern_length matchIPv4 (by simp [theMatchers])]

/-! ## C2 (amended): an IPv4 span in a calm context is masked exactly -/

/-- An IPv4-shaped span built from four digit groups. -/
def ipv4Str (a b c d : List Char) : List Char :=
  a ++ '.' :: b ++ '.' :: c ++ '.' :: d

/-- A surrounding-context character that keeps clear of every pattern:
benign and not a digit. -/
def calmChar (c : Char) : Bool := benignChar c && !isDigitC c

theorem word_of_digit (c : Char) (h : isDigitC c = true) : isWordChar c = true := by
  simp [isWordChar, h]

theorem countWhile_append_all (p : Char → Bool) (xs ys : List Char)
    (h : ∀ c ∈ xs, p c = true) :
    countWhile p (xs ++ ys) = xs.length + countWhile p ys := by
  induction xs with
  | nil => simp
  | cons c cs ih =>
    have hc : p c = true := h c (List.mem_cons_self c cs)
    have ih2 := ih (fun a ha => h a (List.mem_cons_of_mem c ha))
    show countWhile p (c :: (cs ++ ys)) = (c :: cs).length + countWhile p ys
    rw [show countWhile p (c :: (cs ++ ys)) = countWhile p (cs ++ ys) + 1 from by
        simp [countWhile, hc],
      ih2]
    simp [List.length_cons]
    omega

theorem countWhile_eq_zero (p : Char → Bool) (s : List Char)
    (h : ∀ c, s.head? = some c → p c = false) : countWhile p s = 0 := by
  cases s with
  | nil => rfl
  | cons c cs => simp [countWhile, h c rfl]

theorem subFuel_nil (m : Matcher) : ∀ (f : Nat) (prev : Option Char), subFuel m f prev [] = []
  | 0, _ => rfl
  | _ + 1, _ => rfl

/-- The character of the original text right before the continuation point,
after the scan has walked over `pre`. -/
def prevAfter (prev : Option Char) (pre : List Char) : Option Char :=
  match pre.getLast? with
  | some c => some c
  | none => prev

theorem prevAfter_cons (prev : Option Char) (c : Char) (cs : List Char) :
    prevAfter prev (c :: cs) = prevAfter (some c) cs := by
  cases cs with
  | nil => rfl
  | cons d ds =>
    simp only [prevAfter, List.getLast?_cons_cons]
    cases h : (d :: ds).getLast? with
    | some e => rfl
    | none =>
      exfalso
      have : d :: ds ≠ [] := List.cons_ne_nil d ds
      rw [List.getLast?_eq_getLast (d :: ds) this] at h
      cases h

/-- A scan walks over a block of characters on which the matcher can anchor
nothing, copying them. -/
theorem subFuel_copy (m : Matcher) (bad : Char → Bool)
    (hm : ∀ (prev : Option Char) (c : Char) (cs : List Char),
      bad c = true → m prev (c :: cs) = none) :
    ∀ (pre : List Char) (f : Nat) (prev : Option Char) (rest : List Char),
      (∀ c ∈ pre, bad c = true) →
      subFuel m (pre.length + f) prev (pre ++ rest)
        = pre ++ subFuel m f (prevAfter prev pre) rest := by
  intro pre
  induction pre with
  | nil => intro f prev rest _; simp [prevAfter]
  | cons c cs ih =>
    intro f prev rest hb
    rw [show (c :: cs).length + f = (cs.length + f) + 1 from by simp [List.length_cons]; omega]
    show subFuel m ((cs.length + f) + 1) prev (c :: (cs ++ rest)) = _
    simp only [subFuel, hm prev c (cs ++ rest) (hb c (List.mem_cons_self c cs))]
    rw [ih f (some c) rest (fun a ha => hb a (List.mem_cons_of_mem c ha)), prevAfter_cons]
    rfl

/-- A scan that finds a match covering `s` exactly, followed by a block the
matcher can anchor nothing on, masks `s` and copies the block. -/
theorem subFuel_mask_then_copy (m : Matcher) (bad : Char → Bool)
    (hm : ∀ (prev : Option Char) (c : Char) (cs : List Char),
      bad c = true → m prev (c :: cs) = none)
    (s rest : List Char) (f : Nat) (prev : Option Char)
    (hmatch : m prev (s ++ rest) = some s.length) (hs : 1 ≤ s.length)
    (hrest : ∀ c ∈ rest, bad c = true) :
    subFuel m (s.length + rest.length + f) prev (s ++ rest)
      = List.replicate s.length 'x' ++ rest := by
  cases s with
  | nil => simp at hs
  | cons c cs =>
    rw [show (c :: cs).length + rest.length + f
        = (cs.length + rest.length + f) + 1 from by simp [List.length_cons]; omega]
    show subFuel m ((cs.length + rest.length + f) + 1) prev (c :: (cs ++ rest)) = _
    have hmatch2 : m prev (c :: (cs ++ rest)) = some (cs.length + 1) := by
      rw [show c :: (cs ++ rest) = (c :: cs) ++ rest from rfl, hmatch]
      simp [List.length_cons]
    simp only [subFuel, hmatch2]
    have hdrop : (cs ++ rest).drop (cs.length + 1 - 1) = rest := by
      simp [List.drop_left]
    rw [hdrop]
    have htail : ∀ pv : Option Char,
        subFuel m (cs.length + rest.length + f) pv rest = rest := by
      intro pv
      have h2 := subFuel_copy m bad hm rest (cs.length + f) pv [] hrest
      rw [List.append_nil, subFuel_nil, List.append_nil] at h2
      rw [show cs.length + rest.length + f = rest.length + (cs.length + f) from by omega]
      exact h2
    rw [htail]
    simp [List.length_cons]

theorem matchOctetDot_group (a rest : List Char) (h1 : 1 ≤ a.length) (h3 : a.length ≤ 3)
    (ha : ∀ c ∈ a, isDigitC c = true) :
    matchOctetDot (a ++ '.' :: rest) = some (a.length + 1) := by
  unfold matchOctetDot
  dsimp only
  have hk : countWhile isDigitC (a ++ '.' :: rest) = a.length := by
    rw [countWhile_append_all _ _ _ ha]
    have hdot : isDigitC '.' = false := by decide
    simp [countWhile, hdot]
  rw [hk, List.drop_left]
  simp [h1, h3]

theorem drop_group (a rest : List Char) : (a ++ '.' :: rest).drop (a.length + 1) = rest := by
  rw [show a ++ '.' :: rest = (a ++ ['.']) ++ rest from by simp,
    show a.length + 1 = (a ++ ['.']).length from by simp,
    List.drop_left]

theorem matchTailOctet_group (d post : List Char) (h1 : 1 ≤ d.length) (h3 : d.length ≤ 3)
    (hd : ∀ c ∈ d, isDigitC c = true)
    (hpost : ∀ c, post.head? = some c → isWordChar c = false) :
    matchTailOctet (d ++ post) = some d.length := by
  unfold matchTailOctet
  dsimp only
  have hk : countWhile isDigitC (d ++ post) = d.length := by
    rw [countWhile_append_all _ _ _ hd]
    have hz : countWhile isDigitC post = 0 := by
      apply countWhile_eq_zero
      intro c hc
      cases hdig : isDigitC c with
      | false => rfl
      | true =>
        exfalso
        have := hpost c hc
        rw [word_of_digit c hdig] at this
        cases this
    omega
  have hw : wordEnd post = true := by
    cases post with
    | nil => rfl
    | cons c cs => simp [wordEnd, hpost c rfl]
  rw [hk, List.drop_left]
  simp [h1, h3, hw]

/-- Shape of a digit-group hypothesis for one IPv4 octet. -/
def OctetOk (a : List Char) : Prop :=
  1 ≤ a.length ∧ a.length ≤ 3 ∧ ∀ c ∈ a, isDigitC c = true

instance (a : List Char) : Decidable (OctetOk a) := by
  unfold OctetOk
  infer_instance

theorem drop_add (s : List Char) (i j : Nat) : s.drop (i + j) = (s.drop i).drop j := by
  rw [List.drop_drop, Nat.add_comm]

/-- The IPv4 pattern matches an exact IPv4-shaped span at a position whose
left context is not a word character and whose right context starts with
no word character. -/
theorem matchIPv4_group (prev : Option Char) (a b c d post : List Char)
    (hpw : prevIsWord prev = false)
    (Ha : OctetOk a) (Hb : OctetOk b) (Hc : OctetOk c) (Hd : OctetOk d)
    (hpost : ∀ ch, post.head? = some ch → isWordChar ch = false) :
    matchIPv4 prev (a ++ '.' :: (b ++ '.' :: (c ++ '.' :: (d ++ post))))
      = some (a.length + b.length + c.length + d.length + 3) := by
  obtain ⟨ha1, ha3, had⟩ := Ha
  obtain ⟨hb1, hb3, hbd⟩ := Hb
  obtain ⟨hc1, hc3, hcd⟩ := Hc
  obtain ⟨hd1, hd3, hdd⟩ := Hd
  have hbnd : atBoundary prev (a ++ '.' :: (b ++ '.' :: (c ++ '.' :: (d ++ post)))) = true := by
    cases a with
    | nil => simp at ha1
    | cons a0 a' =>
      have : isWordChar a0 = true :=
        word_of_digit a0 (had a0 (List.mem_cons_self a0 a'))
      simp [atBoundary, hpw, this]
  have e1 : matchOctetDot (a ++ '.' :: (b ++ '.' :: (c ++ '.' :: (d ++ post))))
      = some (a.length + 1) := matchOctetDot_group _ _ ha1 ha3 had
  have w1 : (a ++ '.' :: (b ++ '.' :: (c ++ '.' :: (d ++ post)))).drop (a.length + 1)
      = b ++ '.' :: (c ++ '.' :: (d ++ post)) := drop_group _ _
  have e2 : matchOctetDot (b ++ '.' :: (c ++ '.' :: (d ++ post)))
      = some (b.length + 1) := matchOctetDot_group _ _ hb1 hb3 hbd
  have w2 : (a ++ '.' :: (b ++ '.' :: (c ++ '.' :: (d ++ post)))).drop
        (a.length + 1 + (b.length + 1)) = c ++ '.' :: (d ++ post) := by
    rw [drop_add, w1]
    exact drop_group _ _
  have e3 : matchOctetDot (c ++ '.' :: (d ++ post))
      = some (c.length + 1) := matchOctetDot_group _ _ hc1 hc3 hcd
  have w3 : (a ++ '.' :: (b ++ '.' :: (c ++ '.' :: (d ++ post)))).drop
        (a.length + 1 + (b.length + 1) + (c.length + 1)) = d ++ post := by
    rw [drop_add, w2]
    exact drop_group _ _
  have e4 : matchTailOctet (d ++ post) = some d.length :=
    matchTailOctet_group _ _ hd1 hd3 hdd hpost
  unfold matchIPv4
  rw [if_pos hbnd]
  simp only [e1, w1, e2, w2, e3, w3, e4, Option.some.injEq]
  omega

theorem matchOctetDot_none_head (c : Char) (cs : List Char) (h : isDigitC c = false) :
    matchOctetDot (c :: cs) = none := by
  unfold matchOctetDot
  dsimp only
  rw [show countWhile isDigitC (c :: cs) = 0 from by simp [countWhile, h]]
  simp

theorem matchIPv4_none_head (prev : Option Char) (c : Char) (cs : List Char)
    (h : isDigitC c = false) : matchIPv4 prev (c :: cs) = none := by
  unfold matchIPv4
  split
  · rw [matchOctetDot_none_head c cs h]
  · rfl

theorem benign_of_calm (c : Char) (h : calmChar c = true) : benignChar c = true := by
  simp only [calmChar, Bool.and_eq_true] at h
  exact h.1

theorem nondigit_of_calm (c : Char) (h : calmChar c = true) : isDigitC c = false := by
  simp only [calmChar, Bool.and_eq_true, Bool.not_eq_true'] at h
  exact h.2

/-- The IPv4 pass on a calm context masks exactly the IPv4-shaped span. -/
theorem subPattern_ipv4_calm (a b c d pre post : List Char)
    (Ha : OctetOk a) (Hb : OctetOk b) (Hc : OctetOk c) (Hd : OctetOk d)
    (hpre : ∀ ch ∈ pre, calmChar ch = true) (hpost : ∀ ch ∈ post, calmChar ch = true)
    (hpre2 : ∀ ch, pre.getLast? = some ch → isWordChar ch = false)
    (hpost2 : ∀ ch, post.head? = some ch → isWordChar ch = false) :
    subPattern matchIPv4 (pre ++ (ipv4Str a b c d ++ post))
      = pre ++ (List.replicate (ipv4Str a b c d).length 'x' ++ post) := by
  have hbad : ∀ (prev : Option Char) (ch : Char) (cs : List Char),
      (!isDigitC ch) = true → matchIPv4 prev (ch :: cs) = none := by
    intro prev ch cs h
    exact matchIPv4_none_head prev ch cs (by simpa using h)
  have hprebad : ∀ ch ∈ pre, (!isDigitC ch) = true := fun ch hc => by
    simp [nondigit_of_calm ch (hpre ch hc)]
  have hpostbad : ∀ ch ∈ post, (!isDigitC ch) = true := fun ch hc => by
    simp [nondigit_of_calm ch (hpost ch hc)]
  have hpw : prevIsWord (prevAfter none pre) = false := by
    unfold prevAfter
    cases hg : pre.getLast? with
    | none => rfl
    | some ch => simpa [prevIsWord] using hpre2 ch hg
  have hip : ipv4Str a b c d ++ post
      = a ++ '.' :: (b ++ '.' :: (c ++ '.' :: (d ++ post))) := by
    simp [ipv4Str, List.append_assoc, List.cons_append]
  have hiplen : (ipv4Str a b c d).length
      = a.length + b.length + c.length + d.length + 3 := by
    simp [ipv4Str, List.length_append, List.length_cons]
    omega
  have hmatch : matchIPv4 (prevAfter none pre) (ipv4Str a b c d ++ post)
      = some (ipv4Str a b c d).length := by
    rw [hip, hiplen]
    exact matchIPv4_group _ a b c d post hpw Ha Hb Hc Hd hpost2
  have hlen : (pre ++ (ipv4Str a b c d ++ post)).length
      = pre.length + ((ipv4Str a b c d).length + post.length + 0) := by
    simp [List.length_append]
  unfold subPattern
  rw [hlen]
  rw [subFuel_copy matchIPv4 (fun ch => !isDigitC ch) hbad pre
    ((ipv4Str a b c d).length + post.length + 0) none (ipv4Str a b c d ++ post) hprebad]
  rw [subFuel_mask_then_copy matchIPv4 (fun ch => !isDigitC ch) hbad
    (ipv4Str a b c d) post 0 (prevAfter none pre) hmatch
    (by rw [hiplen]; omega) hpostbad]

/-- A calm or masked text is benign everywhere. -/
theorem benign_context (pre post xs : List Char)
    (hpre : ∀ ch ∈ pre, calmChar ch = true) (hpost : ∀ ch ∈ post, calmChar ch = true)
    (hxs : ∀ ch ∈ xs, ch = 'x') :
    ∀ ch ∈ pre ++ (xs ++ post), benignChar ch = true := by
  intro ch hc
  rcases List.mem_append.1 hc with hc | hc
  · exact benign_of_calm ch (hpre ch hc)
  · rcases List.mem_append.1 hc with hc | hc
    · rw [hxs ch hc]; decide
    · exact benign_of_calm ch (hpost ch hc)

/-- C2, corrected form: `anonymise_text` always returns a text of the same
length as its input, and a word-separated IPv4-shaped span whose
surroundings avoid digits and the pattern-anchoring characters
`.`, `@`, `:`, `h`, `p`, `P` is replaced by exactly as many `x`
characters as it is long, with the surroundings byte-identical. -/
theorem c2_length_and_ipv4_masking :
    (∀ s : List Char, (anonymiseText s).length = s.length)
    ∧ ∀ (a b c d pre post : List Char),
        OctetOk a → OctetOk b → OctetOk c → OctetOk d →
        (∀ ch ∈ pre, calmChar ch = true) → (∀ ch ∈ post, calmChar ch = true) →
        (∀ ch, pre.getLast? = some ch → isWordChar ch = false) →
        (∀ ch, post.head? = some ch → isWordChar ch = false) →
        anonymiseText (pre ++ (ipv4Str a b c d ++ post))
          = pre ++ (List.replicate (ipv4Str a b c d).length 'x' ++ post) := by
  constructor
  · exact anonymiseText_length
  · intro a b c d pre post Ha Hb Hc Hd hpre hpost hpre2 hpost2
    have h1 := subPattern_ipv4_calm a b c d pre post Ha Hb Hc Hd hpre hpost hpre2 hpost2
    have hben : ∀ ch ∈ pre ++ (List.replicate (ipv4Str a b c d).length 'x' ++ post),
        benignChar ch = true :=
      benign_context pre post _ hpre hpost (fun ch hc => List.eq_of_mem_replicate hc)
    simp only [anonymiseText, theMatchers, List.foldl]
    rw [h1,
      subPattern_of_noMatchIn matchURL _
        (noMatchFrom_of_benign matchURL (by simp [theMatchers]) _ none _ hben),
      subPattern_of_noMatchIn matchEmail _
        (noMatchFrom_of_benign matchEmail (by simp [theMatchers]) _ none _ hben),
      subPattern_of_noMatchIn matchMAC _
        (noMatchFrom_of_benign matchMAC (by simp [theMatchers]) _ none _ hben),
      subPattern_of_noMatchIn matchPort _
        (noMatchFrom_of_benign matchPort (by simp [theMatchers]) _ none _ hben),
      subPattern_of_noMatchIn matchHost _
        (noMatchFrom_of_benign matchHost (by simp [theMatchers]) _ none _ hben)]

/-- Witness for the corrected C2: the span `192.168.1.10` inside
`at 192.168.1.10, ok` becomes exactly twelve `x` characters. -/
theorem c2_length_and_ipv4_masking_witness :
    (anonymiseText (("at 192.168.1.10, ok").data)).length = 19
    ∧ anonymiseText (("at ").data
        ++ (ipv4Str (("192").data) (("168").data) (("1").data) (("10").data) ++ ((", ok").data)))
      = ("at ").data ++ (List.replicate 12 'x' ++ ((", ok").data)) := by
  constructor
  · rw [c2_length_and_ipv4_masking.1 (("at 192.168.1.10, ok").data)]
    decide
  · have h := c2_length_and_ipv4_masking.2 (("192").data) (("168").data) (("1").data)
      (("10").data) (("at ").data) ((", ok").data)
      (by decide) (by decide) (by decide) (by decide)
      (by decide) (by decide) (by decide) (by decide)
    simpa using h

/-! ## Document model and the structural walker

The document library is a black box exposing runs (text plus formatting),
paragraphs, tables (rows of cells, each holding paragraphs and nested
tables), and sections with a header and a footer.  Formatting is an
arbitrary type `F`, which the walker cannot even inspect. -/

/-- A run: the smallest unit carrying a text and its own formatting. -/
structure Run (F : Type) where
  text : List Char
  fmt : F
  deriving DecidableEq

/-- A paragraph is its ordered list of runs. -/
abbrev Para (F : Type) := List (Run F)

mutual

inductive DocTable (F : Type) where
  | mk : DocRows F → DocTable F

inductive DocRows (F : Type) where
  | nil : DocRows F
  | cons : DocRow F → DocRows F → DocRows F

inductive DocRow (F : Type) where
  | mk : DocCells F → DocRow F

inductive DocCells (F : Type) where
  | nil : DocCells F
  | cons : DocCell F → DocCells F → DocCells F

inductive DocCell (F : Type) where
  | mk : List (Para F) → DocTables F → DocCell F

inductive DocTables (F : Type) where
  | nil : DocTables F
  | cons : DocTable F → DocTables F → DocTables F

end

/-- A header or footer: paragraphs and tables, like a cell. -/
structure HdrFtr (F : Type) where
  paras : List (Para F)
  tables : DocTables F

/-- A section carries one header and one footer. -/
structure Sect (F : Type) where
  header : HdrFtr F
  footer : HdrFtr F

/-- A loaded document: body paragraphs, body tables, sections. -/
structure Document (F : Type) where
  paras : List (Para F)
  tables : DocTables F
  sections : List (Sect F)

/-- `_process_runs`, one run: only a run with non-empty text is rewritten,
and only its `text` field; formatting is never touched. -/
def processRun {F : Type} (r : Run F) : Run F :=
  if r.text = [] then r else { r with text := anonymiseText r.text }

/-- `_process_runs` over a paragraph: every run, in order. -/
def processRuns {F : Type} (p : Para F) : Para F :=
  p.map processRun

/-- `_process_paragraphs`. -/
def processParagraphs {F : Type} (ps : List (Para F)) : List (Para F) :=
  ps.map processRuns

mutual

/-- `_process_tables`: each table, each row, each cell; in a cell the
paragraphs first, then the nested tables, recursively. -/
def processTables {F : Type} : DocTables F → DocTables F
  | .nil => .nil
  | .cons t ts => .cons (processTable t) (processTables ts)

def processTable {F : Type} : DocTable F → DocTable F
  | .mk rows => .mk (processRows rows)

def processRows {F : Type} : DocRows F → DocRows F
  | .nil => .nil
  | .cons r rs => .cons (processRow r) (processRows rs)

def processRow {F : Type} : DocRow F → DocRow F
  | .mk cells => .mk (processCells cells)

def processCells {F : Type} : DocCells F → DocCells F
  | .nil => .nil
  | .cons c cs => .cons (processCell c) (processCells cs)

def processCell {F : Type} : DocCell F → DocCell F
  | .mk paras tables => .mk (processParagraphs paras) (processTables tables)

end

/-- `_process_headers_footers`, one header or footer. -/
def processHdrFtr {F : Type} (h : HdrFtr F) : HdrFtr F :=
  { paras := processParagraphs h.paras, tables := processTables h.tables }

/-- `_process_headers_footers`, one section. -/
def processSection {F : Type} (s : Sect F) : Sect F :=
  { header := processHdrFtr s.header, footer := processHdrFtr s.footer }

/-- The in-memory effect of `anonymise_docx` on a loaded document: body
paragraphs, body tables, then every section's header and footer. -/
def processDocument {F : Type} (d : Document F) : Document F :=
  { paras := processParagraphs d.paras
    tables := processTables d.tables
    sections := d.sections.map processSection }

mutual

/-- All paragraphs reachable inside a list of tables, in traversal order. -/
def tablesParas {F : Type} : DocTables F → List (Para F)
  | .nil => []
  | .cons t ts => tableParas t ++ tablesParas ts

def tableParas {F : Type} : DocTable F → List (Para F)
  | .mk rows => rowsParas rows

def rowsParas {F : Type} : DocRows F → List (Para F)
  | .nil => []
  | .cons r rs => rowParas r ++ rowsParas rs

def rowParas {F : Type} : DocRow F → List (Para F)
  | .mk cells => cellsParas cells

def cellsParas {F : Type} : DocCells F → List (Para F)
  | .nil => []
  | .cons c cs => cellParas c ++ cellsParas cs

def cellParas {F : Type} : DocCell F → List (Para F)
  | .mk paras tables => paras ++ tablesParas tables

end

/-- All paragraphs of a header or footer. -/
def hdrFtrParas {F : Type} (h : HdrFtr F) : List (Para F) :=
  h.paras ++ tablesParas h.tables

/-- All paragraphs of a section: header first, then footer. -/
def sectParas {F : Type} (s : Sect F) : List (Para F) :=
  hdrFtrParas s.header ++ hdrFtrParas s.footer

/-- All paragraphs the walker visits, in traversal order. -/
def docParas {F : Type} (d : Document F) : List (Para F) :=
  d.paras ++ (tablesParas d.tables ++ (d.sections.map sectParas).flatten)

mutual

theorem tablesParas_process {F : Type} (ts : DocTables F) :
    tablesParas (processTables ts) = (tablesParas ts).map processRuns :=
  match ts with
  | .nil => rfl
  | .cons t ts => by
    show tableParas (processTable t) ++ tablesParas (processTables ts) = _
    rw [tableParas_process t, tablesParas_process ts]
    simp [tablesParas, List.map_append]

theorem tableParas_process {F : Type} (t : DocTable F) :
    tableParas (processTable t) = (tableParas t).map processRuns :=
  match t with
  | .mk rows => rowsParas_process rows

theorem rowsParas_process {F : Type} (rs : DocRows F) :
    rowsParas (processRows rs) = (rowsParas rs).map processRuns :=
  match rs with
  | .nil => rfl
  | .cons r rs => by
    show rowParas (processRow r) ++ rowsParas (processRows rs) = _
    rw [rowParas_process r, rowsParas_process rs]
    simp [rowsParas, List.map_append]

theorem rowParas_process {F : Type} (r : DocRow F) :
    rowParas (processRow r) = (rowParas r).map processRuns :=
  match r with
  | .mk cells => cellsParas_process cells

theorem cellsParas_process {F : Type} (cs : DocCells F) :
    cellsParas (processCells cs) = (cellsParas cs).map processRuns :=
  match cs with
  | .nil => rfl
  | .cons c cs => by
    show cellParas (processCell c) ++ cellsParas (processCells cs) = _
    rw [cellParas_process c, cellsParas_process cs]
    simp [cellsParas, List.map_append]

theorem cellParas_process {F : Type} (c : DocCell F) :
    cellParas (processCell c) = (cellParas c).map processRuns :=
  match c with
  | .mk paras tables => by
    show processParagraphs paras ++ tablesParas (processTables tables) = _
    rw [tablesParas_process tables]
    simp [cellParas, processParagraphs, List.map_append]

end

theorem hdrFtrParas_process {F : Type} (h : HdrFtr F) :
    hdrFtrParas (processHdrFtr h) = (hdrFtrParas h).map processRuns := by
  unfold hdrFtrParas processHdrFtr
  rw [tablesParas_process]
  simp [processParagraphs, List.map_append]

theorem sectParas_process {F : Type} (s : Sect F) :
    sectParas (processSection s) = (sectParas s).map processRuns := by
  unfold sectParas processSection
  rw [hdrFtrParas_process, hdrFtrParas_process]
  simp [List.map_append]

theorem docParas_process {F : Type} (d : Document F) :
    docParas (processDocument d) = (docParas d).map processRuns := by
  unfold docParas processDocument
  simp only [List.map_append, List.map_map]
  rw [tablesParas_process]
  simp only [processParagraphs]
  congr 2
  induction d.sections with
  | nil => rfl
  | cons s ss ih =>
    simp only [List.map_cons, List.flatten_cons, List.map_append, ih, Function.comp]
    rw [sectParas_process]

/-- C3: the walker preserves the paragraph structure of the whole document:
the paragraphs of the output are, in order, the run-wise processed
paragraphs of the input; within a paragraph the number and order of runs is
unchanged, each run keeps its formatting, a run with non-empty text gets
`anonymise_text` of its old text, and a run with empty text is left
untouched. -/
theorem c3_walker_frame {F : Type} (d : Document F) :
    docParas (processDocument d) = (docParas d).map processRuns
    ∧ (∀ p : Para F, (processRuns p).length = p.length)
    ∧ (∀ r : Run F, (processRun r).fmt = r.fmt)
    ∧ (∀ r : Run F, r.text ≠ [] → (processRun r).text = anonymiseText r.text)
    ∧ (∀ r : Run F, r.text = [] → processRun r = r) := by
  refine ⟨docParas_process d, ?_, ?_, ?_, ?_⟩
  · intro p; simp [processRuns]
  · intro r
    unfold processRun
    split <;> rfl
  · intro r hr
    unfold processRun
    rw [if_neg hr]
  · intro r hr
    unfold processRun
    rw [if_pos hr]

/-- A concrete run with maskable text, for the C3 witness. -/
def runW : Run Nat := ⟨("10.0.0.1 ok").data, 7⟩

/-- A concrete run with empty text, for the C3 witness. -/
def runE : Run Nat := ⟨[], 3⟩

/-- A concrete paragraph, for the C3 witness. -/
def paraW : Para Nat := [runW, runE]

/-- A concrete one-cell table, for the C3 witness. -/
def tableW : DocTable Nat := .mk (.cons (.mk (.cons (.mk [paraW] .nil) .nil)) .nil)

/-- A concrete document with body, table and a section, for the C3 witness. -/
def docW : Document Nat :=
  ⟨[paraW], .cons tableW .nil, [⟨⟨[paraW], .nil⟩, ⟨[], .cons tableW .nil⟩⟩]⟩

/-- Witness for C3 on a concrete document and concrete runs. -/
theorem c3_walker_frame_witness :
    docParas (processDocument docW) = (docParas docW).map processRuns
    ∧ (processRuns paraW).length = paraW.length
    ∧ (processRun runW).fmt = runW.fmt
    ∧ (processRun runW).text = anonymiseText (runW.text)
    ∧ processRun runE = runE :=
  ⟨(c3_walker_frame docW).1, (c3_walker_frame docW).2.1 paraW,
    (c3_walker_frame docW).2.2.1 runW,
    (c3_walker_frame docW).2.2.2.1 runW (by decide),
    (c3_walker_frame docW).2.2.2.2 runE rfl⟩

/-! ## Per-file error containment of `anonymise_docx` in `process_folder`

Loading and saving live in the external document library and may raise;
they are modelled as `Except`-valued operations.  The `try`/`except` of
`anonymise_docx` turns any failure into a printed report carrying the file
name and the error message, and returns normally, so the batch loop of
`process_folder` always reaches the remaining files. -/

/-- The body of `anonymise_docx`: load, walk, save; any step may fail. -/
def anonymiseDocxRun {F : Type} (load : Except String (Document F))
    (save : Document F → Except String Unit) : Except String Unit := do
  let doc ← load
  save (processDocument doc)

/-- The report printed by the `except` arm of `anonymise_docx`. -/
def errorLine (name e : String) : String :=
  "\nError processing " ++ name ++ ": " ++ e

/-- `anonymise_docx` as seen by the batch loop: the result of catching any
exception of the body; `none` means the file was processed silently. -/
def anonymiseDocxCaught {F : Type} (load : Except String (Document F))
    (save : Document F → Except String Unit) (name : String) : Option String :=
  match anonymiseDocxRun load save with
  | .ok _ => none
  | .error e => some (errorLine name e)

/-- The batch loop of `process_folder` over the selected files. -/
def processFolderRun {F : Type} (load : String → Except String (Document F))
    (save : String → Document F → Except String Unit) (files : List String) :
    List (Option String) :=
  files.map (fun f => anonymiseDocxCaught (load f) (save f) f)

/-- C8: every file of the batch yields exactly one per-file outcome
(`anonymise_docx` returns normally whatever its body did), a failing file's
outcome is the report with its name and the underlying message, a
succeeding file's outcome is silent, and each outcome is independent of the
other files, so a failure never aborts the batch. -/
theorem c8_per_file_containment {F : Type} (load : String → Except String (Document F))
    (save : String → Document F → Except String Unit) :
    (∀ files : List String, (processFolderRun load save files).length = files.length)
    ∧ (∀ (files : List String) (f : String), f ∈ files →
        anonymiseDocxCaught (load f) (save f) f ∈ processFolderRun load save files)
    ∧ (∀ (f e : String), anonymiseDocxRun (load f) (save f) = Except.error e →
        anonymiseDocxCaught (load f) (save f) f = some (errorLine f e))
    ∧ (∀ f : String, anonymiseDocxRun (load f) (save f) = Except.ok () →
        anonymiseDocxCaught (load f) (save f) f = none) := by
  refine ⟨?_, ?_, ?_, ?_⟩
  · intro files; simp [processFolderRun]
  · intro files f hf
    exact List.mem_map_of_mem _ hf
  · intro f e he
    simp [anonymiseDocxCaught, he]
  · intro f he
    simp [anonymiseDocxCaught, he]

/-- A loader that fails on one specific file, for the C8 witness. -/
def loadW : String → Except String (Document Nat) := fun f =>
  if f == "bad.docx" then Except.error "corrupt" else Except.ok docW

/-- A saver that always succeeds, for the C8 witness. -/
def saveW : String → Document Nat → Except String Unit := fun _ _ => Except.ok ()

/-- Witness for C8: a failing file is reported with its name and message,
a good file passes silently, both appear in the batch output. -/
theorem c8_per_file_containment_witness :
    (processFolderRun loadW saveW ["good.docx", "bad.docx"]).length = 2
    ∧ anonymiseDocxCaught (loadW "bad.docx") (saveW "bad.docx") "bad.docx"
        ∈ processFolderRun loadW saveW ["good.docx", "bad.docx"]
    ∧ anonymiseDocxCaught (loadW "bad.docx") (saveW "bad.docx") "bad.docx"
        = some (errorLine "bad.docx" "corrupt")
    ∧ anonymiseDocxCaught (loadW "good.docx") (saveW "good.docx") "good.docx" = none :=
  ⟨(c8_per_file_containment loadW saveW).1 ["good.docx", "bad.docx"],
    (c8_per_file_containment loadW saveW).2.1 ["good.docx", "bad.docx"] "bad.docx"
      (by simp),
    (c8_per_file_containment loadW saveW).2.2.1 "bad.docx" "corrupt" rfl,
    (c8_per_file_containment loadW saveW).2.2.2 "good.docx" rfl⟩

/-! ## File selection of `process_folder` -/

/-- A directory entry as `folder.iterdir()` yields it: a final name
component and whether it is a regular file. -/
structure FsEntry where
  name : List Char
  isFile : Bool
  deriving DecidableEq

/-- Index of the last dot of the name (`str.rfind`), if any. -/
def rfindDot (name : List Char) : Option Nat :=
  match name.reverse.findIdx? (fun c => c == '.') with
  | some j => some (name.length - 1 - j)
  | none => none

/-- CPython `PurePath.suffix`: the part of the name from its last dot on,
empty when there is no dot or the last dot is the first or the final
character of the name. -/
def pySuffix (name : List Char) : List Char :=
  match rfindDot name with
  | some i => if 0 < i ∧ i < name.length - 1 then name.drop i else []
  | none => []

/-- `str.lower` on an ASCII character. -/
def lowerChar (c : Char) : Char :=
  if 'A' ≤ c && c ≤ 'Z' then Char.ofNat (c.toNat + 32) else c

/-- `str.lower` on a name. -/
def lowerStr (s : List Char) : List Char := s.map lowerChar

/-- The eligibility test of `process_folder`: a regular file whose suffix
lowercases to `.docx` and whose name does not start with `Anonymised_`. -/
def eligibleFile (f : FsEntry) : Bool :=
  f.isFile && (lowerStr (pySuffix f.name) == (".docx").data)
    && !(List.isPrefixOf (("Anonymised_").data) f.name)

/-- The file list `process_folder` builds from the folder's entries. -/
def selectFiles (entries : List FsEntry) : List FsEntry :=
  entries.filter eligibleFile

/-- C9: `process_folder` selects exactly the regular files whose extension
is `.docx` up to case and whose name does not start with `Anonymised_`;
on a folder holding `report.docx`, `Anonymised_report.docx` and
`notes.txt`, exactly `report.docx` is selected. -/
theorem c9_file_selection :
    (∀ (entries : List FsEntry) (f : FsEntry),
      f ∈ selectFiles entries
        ↔ f ∈ entries ∧ f.isFile = true
            ∧ lowerStr (pySuffix f.name) = (".docx").data
            ∧ List.isPrefixOf (("Anonymised_").data) f.name = false)
    ∧ selectFiles
        [⟨("report.docx").data, true⟩, ⟨("Anonymised_report.docx").data, true⟩,
          ⟨("notes.txt").data, true⟩]
      = [⟨("report.docx").data, true⟩] := by
  constructor
  · intro entries f
    rw [selectFiles, List.mem_filter]
    simp [eligibleFile, Bool.and_eq_true, Bool.not_eq_true', and_assoc]
  · decide

/-- C10: the extension check is case-insensitive while the prefix check is
case-sensitive: `REPORT.DOCX` and `anonymised_report.docx` are both
selected, `Anonymised_report.docx` is not. -/
theorem c10_case_asymmetry :
    eligibleFile ⟨("REPORT.DOCX").data, true⟩ = true
    ∧ eligibleFile ⟨("anonymised_report.docx").data, true⟩ = true
    ∧ eligibleFile ⟨("Anonymised_report.docx").data, true⟩ = false := by decide

end Anonymiser
